import Mathlib

/-!
Verification of the clipboard-history persistence core in `clipboard_gui.py`
(class `HistoryManager`, class `ClipboardMonitor`).

Python strings are embedded as `List Char`; the in-memory history dict
`self.history : {date -> list[(timestamp_iso, item_type, content)]}` is an
association list whose operations mirror the dict operations actually used by
the source (membership test, single-key insert/update, single-key delete).
The CSV layer (`csv.writer` / `csv.reader` with the default dialect, files
opened with `newline=''`) is embedded as an explicit character-level encoder
and a parsing state machine.
-/

namespace ClipIt

abbrev Str := List Char

/-- Calendar date, the result of `datetime.fromisoformat(ts).date()`. -/
structure Date where
  year : Nat
  month : Nat
  day : Nat
deriving DecidableEq, Repr

/-- Python `date` comparison (lexicographic on year, month, day). -/
def Date.le (a b : Date) : Prop :=
  a.year < b.year ∨
    (a.year = b.year ∧ (a.month < b.month ∨ (a.month = b.month ∧ a.day ≤ b.day)))

instance : DecidableRel Date.le := fun a b => by
  unfold Date.le; infer_instance

/-- Descending comparison used by `sorted(keys, reverse=True)`. -/
def dge (a b : Date) : Prop := Date.le b a

instance : DecidableRel dge := fun a b => by
  unfold dge; infer_instance

instance : IsTotal Date dge := ⟨fun a b => by unfold dge Date.le; omega⟩

instance : IsTrans Date dge := ⟨fun a b c h1 h2 => by unfold dge Date.le at *; omega⟩

instance : IsAntisymm Date dge := ⟨fun a b h1 h2 => by
  unfold dge Date.le at h1 h2
  obtain ⟨a1, a2, a3⟩ := a
  obtain ⟨b1, b2, b3⟩ := b
  simp only at h1 h2
  simp only [Date.mk.injEq]
  omega⟩

def timeCharOk (c : Char) : Bool := c.isDigit || c == ':' || c == '.'

/-- Remainder of an ISO timestamp after the `YYYY-MM-DD` date part. -/
def timeOk : Str → Bool
  | [] => true
  | c :: rest => (c == 'T' || c == ' ') && rest.all timeCharOk

def digitsVal (c1 c2 : Char) : Nat := (c1.toNat - 48) * 10 + (c2.toNat - 48)

/-- Modelled from the Python standard library: `datetime.fromisoformat` as used
by `HistoryManager` — parses `YYYY-MM-DD[{T or space}time]`, raising
(`none`) on malformed input. Day-in-month and leap-year refinements of the
real parser are simplified to `day ≤ 31`; no claim depends on them. The
`.date()` projection is fused in: only the calendar date is ever used. -/
def fromisoformat (s : Str) : Option Date :=
  match s with
  | y1 :: y2 :: y3 :: y4 :: s1 :: m1 :: m2 :: s2 :: d1 :: d2 :: rest =>
    if y1.isDigit && y2.isDigit && y3.isDigit && y4.isDigit &&
       (s1 == '-') && m1.isDigit && m2.isDigit && (s2 == '-') &&
       d1.isDigit && d2.isDigit && timeOk rest then
      let M := digitsVal m1 m2
      let D := digitsVal d1 d2
      if 1 ≤ M && M ≤ 12 && 1 ≤ D && D ≤ 31 then
        some ⟨(digitsVal y1 y2) * 100 + digitsVal y3 y4, M, D⟩
      else none
    else none
  | _ => none

/-- One history record: the tuple `(timestamp_iso, item_type, content)`. -/
structure Item where
  timestamp_iso : Str
  item_type : Str
  content : Str
deriving DecidableEq, Repr

/-- The in-memory `self.history` dict: date-keyed buckets, newest-first. -/
abbrev History := List (Date × List Item)

/-- Lookup `self.history.get(date)` / the test `date in self.history`. -/
def hfind : History → Date → Option (List Item)
  | [], _ => none
  | (k, b) :: t, d => if k = d then some b else hfind t d

/-- Insertion `if item_date not in self.history: self.history[item_date] = []` followed by
`self.history[item_date].insert(0, item)`: prepend into the bucket for `d`,
creating it (at dict insertion-order end) if absent. -/
def hinsert : History → Date → Item → History
  | [], d, r => [(d, [r])]
  | (k, b) :: t, d, r => if k = d then (k, r :: b) :: t else (k, b) :: hinsert t d r

/-- Deletion `del self.history[date_to_clear]`: remove the (unique) entry for that key. -/
def eraseDate : History → Date → History
  | [], _ => []
  | (k, b) :: t, d => if k = d then t else (k, b) :: eraseDate t d

def hkeys (h : History) : List Date := h.map Prod.fst

/-- Embeds `HistoryManager.get_all_dates`: `sorted(self.history.keys(), reverse=True)`. -/
def get_all_dates (h : History) : List Date := List.insertionSort dge (hkeys h)

/-- Embeds `HistoryManager.get_history_for_date`: `self.history.get(date, [])`. -/
def get_history_for_date (h : History) (d : Date) : List Item :=
  (hfind h d).getD []

/-! ### CSV layer: `csv.writer` / `csv.reader`, default dialect, `newline=''` -/

/-- Field needs quoting under `QUOTE_MINIMAL`: it contains the delimiter, the
quotechar, or a character of the line terminator. -/
def needsQuote (f : Str) : Bool :=
  f.any (fun c => c == ',' || c == '"' || c == '\r' || c == '\n')

/-- Double every quotechar (the default `doublequote=True` escaping). -/
def escQuotes : Str → Str
  | [] => []
  | c :: cs => if c = '"' then '"' :: '"' :: escQuotes cs else c :: escQuotes cs

def encodeField (f : Str) : Str :=
  if needsQuote f then '"' :: (escQuotes f ++ ['"']) else f

/-- Embeds `csv.writer(f).writerow([ts, ty, c])`: three encoded fields joined by the
delimiter, terminated by the default `\r\n` line terminator. -/
def encodeRow (r : Item) : Str :=
  encodeField r.timestamp_iso ++ ',' :: encodeField r.item_type ++
    ',' :: encodeField r.content ++ ['\r', '\n']

/-- Embeds `writer.writerows(rs)`. -/
def encodeRows (rs : List Item) : Str := (rs.map encodeRow).flatten

/-- Parser state of the CSV reader. `startCR` is `start` with a pending
carriage return: it additionally swallows one `\n`, so that a `\r\n` pair
terminates a single row. -/
inductive CSt
  | start   -- at the beginning of a row
  | startCR -- at the beginning of a row, just after a bare '\r'
  | fstart  -- at the beginning of a field, after a delimiter
  | unq     -- inside an unquoted field
  | inq     -- inside a quoted field
  | postq   -- just after a quote character inside a quoted field
deriving DecidableEq, Repr

/-- The `csv.reader` state machine over the raw character stream: fields split
on the delimiter outside quotes, quoted fields may contain delimiters and
newlines, doubled quotes collapse, `\r\n` (or a bare `\r` or `\n`) terminates
a row. `f` is the pending field, `row` the completed fields of the current
row. -/
def csvRun (st : CSt) (f : Str) (row : List Str) : Str → List (List Str)
  | [] =>
    match st with
    | .start => []
    | .startCR => []
    | _ => [row ++ [f]]
  | c :: cs =>
    match st with
    | .start =>
      if c = '"' then csvRun .inq [] [] cs
      else if c = ',' then csvRun .fstart [] [[]] cs
      else if c = '\n' then [] :: csvRun .start [] [] cs
      else if c = '\r' then [] :: csvRun .startCR [] [] cs
      else csvRun .unq [c] [] cs
    | .startCR =>
      if c = '\n' then csvRun .start [] [] cs
      else if c = '"' then csvRun .inq [] [] cs
      else if c = ',' then csvRun .fstart [] [[]] cs
      else if c = '\r' then [] :: csvRun .startCR [] [] cs
      else csvRun .unq [c] [] cs
    | .fstart =>
      if c = '"' then csvRun .inq [] row cs
      else if c = ',' then csvRun .fstart [] (row ++ [[]]) cs
      else if c = '\n' then (row ++ [[]]) :: csvRun .start [] [] cs
      else if c = '\r' then (row ++ [[]]) :: csvRun .startCR [] [] cs
      else csvRun .unq [c] row cs
    | .unq =>
      if c = ',' then csvRun .fstart [] (row ++ [f]) cs
      else if c = '\n' then (row ++ [f]) :: csvRun .start [] [] cs
      else if c = '\r' then (row ++ [f]) :: csvRun .startCR [] [] cs
      else csvRun .unq (f ++ [c]) row cs
    | .inq =>
      if c = '"' then csvRun .postq f row cs
      else csvRun .inq (f ++ [c]) row cs
    | .postq =>
      if c = '"' then csvRun .inq (f ++ ['"']) row cs
      else if c = ',' then csvRun .fstart [] (row ++ [f]) cs
      else if c = '\n' then (row ++ [f]) :: csvRun .start [] [] cs
      else if c = '\r' then (row ++ [f]) :: csvRun .startCR [] [] cs
      else csvRun .unq (f ++ [c]) row cs

/-- Embeds `list(csv.reader(f))` on the whole file content. -/
def parseCSV (s : Str) : List (List Str) := csvRun .start [] [] s

/-! ### HistoryManager: load, append, rewrite, deletion -/

/-- Bridge between a parsed CSV row and an `Item`. -/
def toRow (r : Item) : List Str := [r.timestamp_iso, r.item_type, r.content]

/-- The row loop of `HistoryManager._load_history_from_csv`: rows of arity
three are fed to `_add_item_to_memory` (parse the timestamp, prepend to the
day bucket), other rows are skipped; a `ValueError` from
`datetime.fromisoformat` escapes the loop and is caught by the surrounding
`except`, leaving the rows already loaded in memory and dropping the rest. -/
def loadRows : History → List (List Str) → History
  | h, [] => h
  | h, row :: rest =>
    match row with
    | [ts, ty, c] =>
      match fromisoformat ts with
      | some d => loadRows (hinsert h d ⟨ts, ty, c⟩) rest
      | none => h
    | _ => loadRows h rest

/-- Embeds `HistoryManager._load_history_from_csv`: a missing file yields an empty
history, otherwise the CSV rows are replayed in file order. -/
def loadFile : Option Str → History
  | none => []
  | some s => loadRows [] (parseCSV s)

/-- The full `HistoryManager` state: the in-memory dict plus the byte content
of `history.csv` on disk. -/
structure HM where
  history : History
  csvFile : Str
deriving DecidableEq, Repr

/-- A fresh install: empty dict, empty `history.csv`. -/
def hmEmpty : HM := ⟨[], []⟩

/-- Embeds `HistoryManager.add_item`: parse the timestamp (raising `none` on a
malformed one, before any mutation), prepend to the day bucket, then
`_append_to_csv` one encoded row. -/
def add_item (st : HM) (r : Item) : Option HM :=
  match fromisoformat r.timestamp_iso with
  | some d => some ⟨hinsert st.history d r, st.csvFile ++ encodeRow r⟩
  | none => none

/-- A sequence of live `add_item` calls. -/
def addItems : HM → List Item → Option HM
  | st, [] => some st
  | st, r :: rs => (add_item st r).bind (addItems · rs)

/-- The record sequence written by `HistoryManager._rewrite_csv`: for each date
in `sorted(keys, reverse=True)`, the bucket's items reversed. -/
def rewriteRecords (h : History) : List Item :=
  ((get_all_dates h).map (fun d => (get_history_for_date h d).reverse)).flatten

/-- Embeds `HistoryManager._rewrite_csv`: `open(csv_path, 'w')` truncates the target
in place, then `writer.writerows` the compacted records. -/
def rewrite_csv (st : HM) : HM :=
  ⟨st.history, encodeRows (rewriteRecords st.history)⟩

/-- Embeds `HistoryManager._rewrite_csv` under a simulated fault that stops the write
after `k` records: `open(..., 'w')` has already truncated the file, the first
`k` rows are on disk, the exception is printed and swallowed, and memory is
left as it was. -/
def rewrite_csv_fail (st : HM) (k : Nat) : HM :=
  ⟨st.history, encodeRows ((rewriteRecords st.history).take k)⟩

/-- Embeds `HistoryManager.clear_date`: when the date has a bucket, delete it from the
dict and rewrite the CSV from the remaining memory; otherwise do nothing.
(The deletion of image blob files is outside the modelled state.) -/
def clear_date (st : HM) (d : Date) : HM :=
  match hfind st.history d with
  | some _ => rewrite_csv ⟨eraseDate st.history d, st.csvFile⟩
  | none => st

/-- Embeds `HistoryManager.clear_date` when the rewrite fails after `k` records: the
bucket is already deleted from memory (no rollback), and the disk holds the
truncated output. -/
def clear_date_fail (st : HM) (d : Date) (k : Nat) : HM :=
  match hfind st.history d with
  | some _ => rewrite_csv_fail ⟨eraseDate st.history d, st.csvFile⟩ k
  | none => st

/-- Embeds `HistoryManager.clear_all`: clear the dict, rewrite (an empty file). -/
def clear_all (st : HM) : HM :=
  rewrite_csv ⟨[], st.csvFile⟩

/-! ### ClipboardMonitor: priming and text deduplication -/

/-- The priming block at the top of `ClipboardMonitor.run`: starting from
`recent_text = ""` and `recent_image_hash = ""`, look up the most recent item
of the most recent day; if it is a text item, seed `recent_text` with its
content. Returns `(recent_text, recent_image_hash)`. -/
def primeMonitor (h : History) : Str × Str :=
  match get_all_dates h with
  | [] => ([], [])
  | d :: _ =>
    match get_history_for_date h d with
    | [] => ([], [])
    | r :: _ => if r.item_type = "text".data then (r.content, []) else ([], [])

/-- The dedup decision of `ClipboardMonitor.process_text`:
`if text and text != self.recent_text` — returns whether the candidate is
accepted and the detector text state afterwards. -/
def process_text (recent_text text : Str) : Bool × Str :=
  if text ≠ [] ∧ text ≠ recent_text then (true, text) else (false, recent_text)

/-! ### Reachable in-memory states -/

/-- In-memory history states reachable by the program: a startup load from any
file state (missing or with any content), followed by any interleaving of
live insertions (`add_item` with a timestamp `fromisoformat` accepts) and
deletions (`clear_date`, `clear_all`). -/
inductive Reachable : History → Prop
  | boot (s : Option Str) : Reachable (loadFile s)
  | add (h : History) (ts ty c : Str) (d : Date) (hr : Reachable h)
      (hts : fromisoformat ts = some d) : Reachable (hinsert h d ⟨ts, ty, c⟩)
  | clear (h : History) (d : Date) (hr : Reachable h) : Reachable (eraseDate h d)
  | clearAll (h : History) (hr : Reachable h) : Reachable []

/-- The bucket-key invariant: every item in the bucket keyed `d` carries a
timestamp whose calendar date is `d`. -/
def BucketInv (h : History) : Prop :=
  ∀ d b, hfind h d = some b → ∀ r ∈ b, fromisoformat r.timestamp_iso = some d

/-! ### Concrete sample values used in witnesses and counterexamples -/

def dateA : Date := ⟨2024, 1, 1⟩

def dateB : Date := ⟨2024, 1, 2⟩

def dateC : Date := ⟨2024, 1, 3⟩

def itemA : Item := ⟨"2024-01-01T10:00:00".data, "text".data, "hello".data⟩

def itemB : Item := ⟨"2024-01-02T09:30:00".data, "text".data, "world".data⟩

def itemImg : Item := ⟨"2024-01-02T09:31:00".data, "image".data, "img_0001.png".data⟩

def itemTricky : Item := ⟨"2024-01-03T08:00:00".data, "text".data, "a,\"b\"\nc".data⟩

def stA : HM := ⟨[(dateA, [itemA])], encodeRows [itemA]⟩

def stAB : HM := ⟨[(dateA, [itemA]), (dateB, [itemB])], encodeRows [itemA, itemB]⟩

/-! ### Parser/encoder round-trip lemmas -/

theorem plain_of_not_needsQuote {x : Str} (hq : needsQuote x = false) :
    ∀ c ∈ x, ¬c = ',' ∧ ¬c = '"' ∧ ¬c = '\r' ∧ ¬c = '\n' := by
  intro c hc
  unfold needsQuote at hq
  rw [List.any_eq_false] at hq
  have := hq c hc
  simp only [Bool.or_eq_true, beq_iff_eq] at this
  push_neg at this
  tauto

theorem csvRun_unq_scan (x : Str) :
    ∀ (f : Str) (row : List Str) (cs : Str),
    (∀ c ∈ x, ¬c = ',' ∧ ¬c = '\r' ∧ ¬c = '\n') →
    csvRun .unq f row (x ++ cs) = csvRun .unq (f ++ x) row cs := by
  induction x with
  | nil => intro f row cs _; simp
  | cons c x ih =>
    intro f row cs hx
    obtain ⟨h1, h2, h3⟩ := hx c (by simp)
    rw [List.cons_append,
      show csvRun .unq f row (c :: (x ++ cs)) = csvRun .unq (f ++ [c]) row (x ++ cs) from by
        simp [csvRun, h1, h2, h3],
      ih (f ++ [c]) row cs (fun c' hc' => hx c' (by simp [hc']))]
    simp

theorem escQuotes_quote (x : Str) : escQuotes ('"' :: x) = '"' :: '"' :: escQuotes x := by
  simp [escQuotes]

theorem escQuotes_other {c : Char} (hc : ¬c = '"') (x : Str) :
    escQuotes (c :: x) = c :: escQuotes x := by
  simp [escQuotes, hc]

theorem step_quote_start (t : Str) : csvRun .start [] [] ('"' :: t) = csvRun .inq [] [] t := by
  simp [csvRun]

theorem step_quote_fstart (row : List Str) (t : Str) :
    csvRun .fstart [] row ('"' :: t) = csvRun .inq [] row t := by
  simp [csvRun]

theorem step_comma_start (t : Str) : csvRun .start [] [] (',' :: t) = csvRun .fstart [] [[]] t := by
  simp [csvRun]

theorem step_comma_fstart (row : List Str) (t : Str) :
    csvRun .fstart [] row (',' :: t) = csvRun .fstart [] (row ++ [[]]) t := by
  simp [csvRun]

theorem step_nl_fstart (row : List Str) (t : Str) :
    csvRun .fstart [] row ('\r' :: '\n' :: t) = (row ++ [[]]) :: csvRun .start [] [] t := by
  simp [csvRun]

theorem step_other_start {c : Char} (h1 : ¬c = '"') (h2 : ¬c = ',')
    (h3 : ¬c = '\n') (h4 : ¬c = '\r') (t : Str) :
    csvRun .start [] [] (c :: t) = csvRun .unq [c] [] t := by
  simp [csvRun, h1, h2, h3, h4]

theorem step_other_fstart {c : Char} (h1 : ¬c = '"') (h2 : ¬c = ',')
    (h3 : ¬c = '\n') (h4 : ¬c = '\r') (row : List Str) (t : Str) :
    csvRun .fstart [] row (c :: t) = csvRun .unq [c] row t := by
  simp [csvRun, h1, h2, h3, h4]

theorem step_comma_unq (f : Str) (row : List Str) (t : Str) :
    csvRun .unq f row (',' :: t) = csvRun .fstart [] (row ++ [f]) t := by
  simp [csvRun]

theorem step_nl_unq (f : Str) (row : List Str) (t : Str) :
    csvRun .unq f row ('\r' :: '\n' :: t) = (row ++ [f]) :: csvRun .start [] [] t := by
  simp [csvRun]

theorem step_quote_inq (f : Str) (row : List Str) (t : Str) :
    csvRun .inq f row ('"' :: t) = csvRun .postq f row t := by
  simp [csvRun]

theorem step_quote_postq (f : Str) (row : List Str) (t : Str) :
    csvRun .postq f row ('"' :: t) = csvRun .inq (f ++ ['"']) row t := by
  simp [csvRun]

theorem step_comma_postq (f : Str) (row : List Str) (t : Str) :
    csvRun .postq f row (',' :: t) = csvRun .fstart [] (row ++ [f]) t := by
  simp [csvRun]

theorem step_nl_postq (f : Str) (row : List Str) (t : Str) :
    csvRun .postq f row ('\r' :: '\n' :: t) = (row ++ [f]) :: csvRun .start [] [] t := by
  simp [csvRun]

theorem step_other_inq {c : Char} (hc : ¬c = '"') (f : Str) (row : List Str) (t : Str) :
    csvRun .inq f row (c :: t) = csvRun .inq (f ++ [c]) row t := by
  simp [csvRun, hc]

theorem csvRun_inq_scan (x : Str) :
    ∀ (f : Str) (row : List Str) (cs : Str),
    csvRun .inq f row (escQuotes x ++ cs) = csvRun .inq (f ++ x) row cs := by
  induction x with
  | nil => intro f row cs; simp [escQuotes]
  | cons c x ih =>
    intro f row cs
    by_cases hc : c = '"'
    · subst hc
      rw [escQuotes_quote, List.cons_append, List.cons_append, step_quote_inq,
        step_quote_postq, ih]
      simp
    · rw [escQuotes_other hc, List.cons_append, step_other_inq hc, ih]
      simp

theorem field_comma_fstart (x : Str) (row : List Str) (rest : Str) :
    csvRun .fstart [] row (encodeField x ++ ',' :: rest) =
      csvRun .fstart [] (row ++ [x]) rest := by
  by_cases hq : needsQuote x
  · simp only [encodeField, if_pos hq]
    rw [List.cons_append, step_quote_fstart, List.append_assoc, List.singleton_append,
      csvRun_inq_scan, step_quote_inq, step_comma_postq]
    simp
  · have hplain := plain_of_not_needsQuote (Bool.of_not_eq_true hq)
    simp only [encodeField, if_neg hq]
    match x, hplain with
    | [], _ => rw [List.nil_append, step_comma_fstart]
    | c :: x, hplain =>
      obtain ⟨h1, h2, h3, h4⟩ := hplain c (by simp)
      rw [List.cons_append, step_other_fstart h2 h1 h4 h3,
        csvRun_unq_scan x [c] row (',' :: rest)
          (fun c' hc' => (fun h => ⟨h.1, h.2.2.1, h.2.2.2⟩) (hplain c' (by simp [hc']))),
        step_comma_unq]
      simp

theorem field_comma_start (x : Str) (rest : Str) :
    csvRun .start [] [] (encodeField x ++ ',' :: rest) =
      csvRun .fstart [] [x] rest := by
  by_cases hq : needsQuote x
  · simp only [encodeField, if_pos hq]
    rw [List.cons_append, step_quote_start, List.append_assoc, List.singleton_append,
      csvRun_inq_scan, step_quote_inq, step_comma_postq]
    simp
  · have hplain := plain_of_not_needsQuote (Bool.of_not_eq_true hq)
    simp only [encodeField, if_neg hq]
    match x, hplain with
    | [], _ => rw [List.nil_append, step_comma_start]
    | c :: x, hplain =>
      obtain ⟨h1, h2, h3, h4⟩ := hplain c (by simp)
      rw [List.cons_append, step_other_start h2 h1 h4 h3,
        csvRun_unq_scan x [c] [] (',' :: rest)
          (fun c' hc' => (fun h => ⟨h.1, h.2.2.1, h.2.2.2⟩) (hplain c' (by simp [hc']))),
        step_comma_unq]
      simp

theorem field_nl_fstart (x : Str) (row : List Str) (rest : Str) :
    csvRun .fstart [] row (encodeField x ++ '\r' :: '\n' :: rest) =
      (row ++ [x]) :: csvRun .start [] [] rest := by
  by_cases hq : needsQuote x
  · simp only [encodeField, if_pos hq]
    rw [List.cons_append, step_quote_fstart, List.append_assoc, List.singleton_append,
      csvRun_inq_scan, step_quote_inq, step_nl_postq]
    simp
  · have hplain := plain_of_not_needsQuote (Bool.of_not_eq_true hq)
    simp only [encodeField, if_neg hq]
    match x, hplain with
    | [], _ => rw [List.nil_append, step_nl_fstart]
    | c :: x, hplain =>
      obtain ⟨h1, h2, h3, h4⟩ := hplain c (by simp)
      rw [List.cons_append, step_other_fstart h2 h1 h4 h3,
        csvRun_unq_scan x [c] row ('\r' :: '\n' :: rest)
          (fun c' hc' => (fun h => ⟨h.1, h.2.2.1, h.2.2.2⟩) (hplain c' (by simp [hc']))),
        step_nl_unq]
      simp

theorem parse_encodeRow (r : Item) (rest : Str) :
    csvRun .start [] [] (encodeRow r ++ rest) = toRow r :: csvRun .start [] [] rest := by
  obtain ⟨a, b, c⟩ := r
  simp only [encodeRow, toRow, List.append_assoc, List.cons_append]
  rw [field_comma_start, field_comma_fstart]
  simpa using field_nl_fstart c [a, b] rest

theorem parse_encodeRows (rs : List Item) :
    parseCSV (encodeRows rs) = rs.map toRow := by
  induction rs with
  | nil => simp [parseCSV, encodeRows, csvRun]
  | cons r rs ih =>
    have : encodeRows (r :: rs) = encodeRow r ++ encodeRows rs := by
      simp [encodeRows]
    rw [parseCSV, this, parse_encodeRow]
    simpa [parseCSV] using ih

theorem encodeRows_append (a b : List Item) :
    encodeRows (a ++ b) = encodeRows a ++ encodeRows b := by
  simp [encodeRows]

/-! ### Dictionary lemmas -/

theorem hfind_hinsert (h : History) (d0 : Date) (r : Item) (d : Date) :
    hfind (hinsert h d0 r) d =
      if d = d0 then some (r :: (hfind h d0).getD []) else hfind h d := by
  induction h with
  | nil =>
    by_cases hd : d = d0
    · subst hd; simp [hinsert, hfind]
    · simp [hinsert, hfind, hd, Ne.symm hd]
  | cons e t ih =>
    obtain ⟨k, b⟩ := e
    by_cases hk : k = d0
    · subst hk
      by_cases hd : d = k
      · subst hd; simp [hinsert, hfind]
      · simp [hinsert, hfind, hd, Ne.symm hd]
    · by_cases hd : d = k
      · subst hd
        simp [hinsert, hfind, hk]
      · simp [hinsert, hfind, hk, hd, Ne.symm hd, ih]

theorem hkeys_hinsert (h : History) (d : Date) (r : Item) :
    hkeys (hinsert h d r) =
      if (hfind h d).isSome then hkeys h else hkeys h ++ [d] := by
  induction h with
  | nil => simp [hinsert, hfind, hkeys]
  | cons e t ih =>
    obtain ⟨k, b⟩ := e
    by_cases hk : k = d
    · subst hk; simp [hinsert, hfind, hkeys]
    · have hfc : hfind ((k, b) :: t) d = hfind t d := by simp [hfind, hk]
      simp only [hinsert, if_neg hk, hkeys, List.map_cons, hfc]
      have ih' : List.map Prod.fst (hinsert t d r) =
          if (hfind t d).isSome then List.map Prod.fst t
          else List.map Prod.fst t ++ [d] := by simpa [hkeys] using ih
      rw [ih']
      by_cases hs : (hfind t d).isSome <;> simp [hs]

theorem hfind_eq_none (h : History) (d : Date) :
    hfind h d = none ↔ d ∉ hkeys h := by
  induction h with
  | nil => simp [hfind, hkeys]
  | cons e t ih =>
    obtain ⟨k, b⟩ := e
    by_cases hk : k = d
    · subst hk; simp [hfind, hkeys]
    · have ih' : hfind t d = none ↔ d ∉ List.map Prod.fst t := by simpa [hkeys] using ih
      simp [hfind, hk, hkeys, ih', Ne.symm hk]

theorem hkeys_eraseDate (h : History) (d : Date) :
    hkeys (eraseDate h d) = (hkeys h).erase d := by
  induction h with
  | nil => simp [eraseDate, hkeys]
  | cons e t ih =>
    obtain ⟨k, b⟩ := e
    by_cases hk : k = d
    · subst hk; simp [eraseDate, hkeys]
    · have ih' : List.map Prod.fst (eraseDate t d) = (List.map Prod.fst t).erase d := by
        simpa [hkeys] using ih
      simp only [eraseDate, if_neg hk, hkeys, List.map_cons, List.erase_cons, ih']
      simp [hk]

theorem hfind_eraseDate_ne (h : History) {d d' : Date} (hne : d' ≠ d) :
    hfind (eraseDate h d) d' = hfind h d' := by
  induction h with
  | nil => simp [eraseDate]
  | cons e t ih =>
    obtain ⟨k, b⟩ := e
    by_cases hk : k = d
    · subst hk; simp [eraseDate, hfind, Ne.symm hne, ih]
    · by_cases hd : k = d'
      · subst hd
        simp [eraseDate, hfind, hk]
      · simp [eraseDate, hfind, hk, hd, ih]

theorem hfind_eraseDate_self (h : History) (d : Date) (hnd : (hkeys h).Nodup) :
    hfind (eraseDate h d) d = none := by
  induction h with
  | nil => simp [eraseDate, hfind]
  | cons e t ih =>
    obtain ⟨k, b⟩ := e
    simp only [hkeys, List.map_cons, List.nodup_cons] at hnd
    by_cases hk : k = d
    · subst hk
      simp only [eraseDate, if_pos rfl]
      rw [hfind_eq_none]
      exact hnd.1
    · simp [eraseDate, hfind, hk, ih hnd.2]

theorem nodup_hkeys_hinsert (h : History) (d : Date) (r : Item)
    (hnd : (hkeys h).Nodup) : (hkeys (hinsert h d r)).Nodup := by
  rw [hkeys_hinsert]
  by_cases hs : (hfind h d).isSome
  · simpa [hs]
  · have : hfind h d = none := by
      cases hh : hfind h d <;> simp_all
    rw [if_neg hs]
    have hd : d ∉ hkeys h := (hfind_eq_none h d).mp this
    simp [List.nodup_append, hnd, hd]

theorem nodup_hkeys_eraseDate (h : History) (d : Date)
    (hnd : (hkeys h).Nodup) : (hkeys (eraseDate h d)).Nodup := by
  rw [hkeys_eraseDate]
  exact hnd.erase d

/-- Sorting by the descending date order commutes with `erase`. -/
theorem insertionSort_dge_erase (l : List Date) (d : Date) :
    List.insertionSort dge (l.erase d) = (List.insertionSort dge l).erase d := by
  refine List.eq_of_perm_of_sorted ?_ (List.sorted_insertionSort dge _) ?_
  · exact ((List.perm_insertionSort dge _).trans
      ((List.perm_insertionSort dge l).erase d).symm)
  · exact (List.sorted_insertionSort dge l).sublist (List.erase_sublist d _)

/-! ### Load/append replay lemmas -/

theorem addItems_spec (rs : List Item) :
    ∀ (st st' : HM), addItems st rs = some st' →
    st'.csvFile = st.csvFile ++ encodeRows rs ∧
      st'.history = loadRows st.history (rs.map toRow) := by
  induction rs with
  | nil =>
    intro st st' h
    simp only [addItems, Option.some.injEq] at h
    subst h
    simp [encodeRows, loadRows]
  | cons r rs ih =>
    intro st st' h
    simp only [addItems] at h
    cases hai : add_item st r with
    | none => rw [hai] at h; simp at h
    | some st1 =>
      rw [hai] at h
      simp only [Option.some_bind] at h
      obtain ⟨h1, h2⟩ := ih st1 st' h
      cases hts : fromisoformat r.timestamp_iso with
      | none => simp [add_item, hts] at hai
      | some d =>
        simp only [add_item, hts, Option.some.injEq] at hai
        subst hai
        constructor
        · rw [h1]
          simp [encodeRows, List.append_assoc]
        · rw [h2]
          simp [loadRows, toRow, hts]

theorem loadRows_map_append (rs : List Item) :
    ∀ (h : History) (rows2 : List (List Str)),
    (∀ p ∈ rs, (fromisoformat p.timestamp_iso).isSome) →
    loadRows h (rs.map toRow ++ rows2) = loadRows (loadRows h (rs.map toRow)) rows2 := by
  induction rs with
  | nil => intro h rows2 _; simp [loadRows]
  | cons r rs ih =>
    intro h rows2 hv
    have hr : (fromisoformat r.timestamp_iso).isSome := hv r (by simp)
    obtain ⟨d, hd⟩ := Option.isSome_iff_exists.mp hr
    simp only [List.map_cons, toRow, List.cons_append, loadRows, hd]
    exact ih _ rows2 (fun p hp => hv p (by simp [hp]))

/-! ### Invariant preservation -/

theorem bucketInv_nil : BucketInv [] := by
  intro d b hb
  simp [hfind] at hb

theorem bucketInv_hinsert {h : History} (hi : BucketInv h) {ts ty c : Str} {d : Date}
    (hts : fromisoformat ts = some d) : BucketInv (hinsert h d ⟨ts, ty, c⟩) := by
  intro d' b hb r hr
  rw [hfind_hinsert] at hb
  by_cases hd : d' = d
  · subst hd
    rw [if_pos rfl] at hb
    cases hb
    rcases List.mem_cons.mp hr with rfl | hr'
    · exact hts
    · cases hh : hfind h d' with
      | none => rw [hh] at hr'; simp at hr'
      | some b0 =>
        rw [hh] at hr'
        exact hi d' b0 hh r hr'
  · rw [if_neg hd] at hb
    exact hi d' b hb r hr

theorem bucketInv_eraseDate {h : History} (hnd : (hkeys h).Nodup) (hi : BucketInv h)
    (d : Date) : BucketInv (eraseDate h d) := by
  intro d' b hb r hr
  by_cases hdd : d' = d
  · subst hdd
    rw [hfind_eraseDate_self _ _ hnd] at hb
    cases hb
  · rw [hfind_eraseDate_ne _ hdd] at hb
    exact hi d' b hb r hr

theorem loadRows_good (rows : List (List Str)) :
    ∀ h : History, (hkeys h).Nodup ∧ BucketInv h →
    (hkeys (loadRows h rows)).Nodup ∧ BucketInv (loadRows h rows) := by
  induction rows with
  | nil => intro h hh; exact hh
  | cons row rest ih =>
    intro h hh
    match row with
    | [ts, ty, c] =>
      cases hts : fromisoformat ts with
      | none => simpa [loadRows, hts] using hh
      | some d =>
        rw [show loadRows h ([ts, ty, c] :: rest) = loadRows (hinsert h d ⟨ts, ty, c⟩) rest
          from by simp [loadRows, hts]]
        exact ih _ ⟨nodup_hkeys_hinsert _ _ _ hh.1, bucketInv_hinsert hh.2 hts⟩
    | [] => exact ih h hh
    | [a] => exact ih h hh
    | [a, b] => exact ih h hh
    | a :: b :: c :: e :: tl => exact ih h hh

theorem reachable_good {h : History} (hr : Reachable h) :
    (hkeys h).Nodup ∧ BucketInv h := by
  induction hr with
  | boot s =>
    cases s with
    | none => exact ⟨by simp [loadFile, hkeys], by simpa [loadFile] using bucketInv_nil⟩
    | some s =>
      exact loadRows_good _ [] ⟨by simp [hkeys], bucketInv_nil⟩
  | add h ts ty c d hrr hts ih =>
    exact ⟨nodup_hkeys_hinsert _ _ _ ih.1, bucketInv_hinsert ih.2 hts⟩
  | clear h d hrr ih =>
    exact ⟨nodup_hkeys_eraseDate _ _ ih.1, bucketInv_eraseDate ih.1 ih.2 d⟩
  | clearAll h hrr ih =>
    exact ⟨by simp [hkeys], bucketInv_nil⟩

/-! ### Claim theorems -/

/-- C1 (counterexample): compaction is not atomic. For the one-bucket state
`stA` (whose log holds one encoded record), a rewrite during
`clear_date stA dateA` that fails before writing any record leaves the
on-disk log empty — not byte-identical to the non-empty pre-call content —
and the in-memory bucket for `dateA` is gone, not restored: `open(path, 'w')`
truncated the target in place, and `clear_date` deleted the bucket with no
rollback. -/
theorem c1_atomic_compaction_counterexample :
    (clear_date_fail stA dateA 0).csvFile = [] ∧
    stA.csvFile ≠ [] ∧
    hfind (clear_date_fail stA dateA 0).history dateA = none := by
  refine ⟨?_, ?_, ?_⟩ <;> decide

/-- C1 (amended): for every state whose date `d` has a bucket, if the rewrite
performed during `clear_date d` fails after `k` records, the on-disk log is
the `k`-record prefix of the compacted output (an in-place truncation of the
target path, in general different from the pre-call bytes), the failure is
swallowed rather than reported, and the in-memory bucket for `d` stays
deleted — there is no rollback and no temp-file-then-rename. -/
theorem c1_atomic_compaction_amended (st : HM) (d : Date) (b : List Item) (k : Nat)
    (hnd : (hkeys st.history).Nodup) (hb : hfind st.history d = some b) :
    (∃ t, (clear_date_fail st d k).csvFile ++ t =
        encodeRows (rewriteRecords (eraseDate st.history d))) ∧
    hfind (clear_date_fail st d k).history d = none := by
  have hst : clear_date_fail st d k =
      ⟨eraseDate st.history d,
        encodeRows ((rewriteRecords (eraseDate st.history d)).take k)⟩ := by
    simp [clear_date_fail, hb, rewrite_csv_fail]
  rw [hst]
  constructor
  · exact ⟨encodeRows ((rewriteRecords (eraseDate st.history d)).drop k), by
      rw [← encodeRows_append, List.take_append_drop]⟩
  · exact hfind_eraseDate_self _ _ hnd

/-- C1 (witness): the amended statement applied to the two-bucket state
`stAB` with the fault hitting before any record is written. -/
theorem c1_atomic_compaction_amended_witness :
    (∃ t, (clear_date_fail stAB dateA 0).csvFile ++ t =
        encodeRows (rewriteRecords (eraseDate stAB.history dateA))) ∧
    hfind (clear_date_fail stAB dateA 0).history dateA = none :=
  c1_atomic_compaction_amended stAB dateA [itemA] 0 (by decide) (by decide)

/-- C2: round-trip law. For every sequence of items inserted live via
`add_item` starting from a fresh manager, reloading the resulting
`history.csv` from scratch (the startup path `_load_history_from_csv`)
reproduces exactly the live in-memory `get_all_dates()` result and, for every
date, the same `get_history_for_date` sequence. -/
theorem c2_round_trip (rs : List Item) (st' : HM)
    (h : addItems hmEmpty rs = some st') (d : Date) :
    get_all_dates (loadFile (some st'.csvFile)) = get_all_dates st'.history ∧
    get_history_for_date (loadFile (some st'.csvFile)) d =
      get_history_for_date st'.history d := by
  obtain ⟨h1, h2⟩ := addItems_spec rs hmEmpty st' h
  have hsame : loadFile (some st'.csvFile) = st'.history := by
    rw [h1]
    show loadRows [] (parseCSV ([] ++ encodeRows rs)) = _
    rw [List.nil_append, parse_encodeRows, h2]
    rfl
  rw [hsame]
  exact ⟨rfl, rfl⟩

/-- C2 (witness): the round trip evaluated for the two-item insertion
sequence `[itemA, itemB]`, which produces the concrete state `stAB`. -/
theorem c2_round_trip_witness :
    get_all_dates (loadFile (some stAB.csvFile)) = get_all_dates stAB.history ∧
    get_history_for_date (loadFile (some stAB.csvFile)) dateA =
      get_history_for_date stAB.history dateA :=
  c2_round_trip [itemA, itemB] stAB (by decide) dateA

/-- C3 (counterexample): detector priming is not performed for both seeds.
For the non-empty history whose most recent item of the most recent day is an
image, `ClipboardMonitor.run` leaves both `recent_text` and
`recent_image_hash` empty: the priming block only ever assigns
`recent_text`, and only when the latest item has kind `text`. -/
theorem c3_detector_priming_counterexample :
    primeMonitor [(dateB, [itemImg])] = ([], []) ∧
    get_all_dates [(dateB, [itemImg])] ≠ [] ∧
    itemImg.item_type = "image".data ∧ itemImg.content ≠ [] := by
  refine ⟨?_, ?_, ?_, ?_⟩ <;> decide

/-- C3 (amended): at capture-loop startup, only `last_text` is seeded, and
only when the most recent item of the most recently active day is a text
item (in which case it gets that item's content); otherwise `last_text`
stays empty, and `last_image_fingerprint` is always left empty. -/
theorem c3_detector_priming_amended (h : History) (d : Date) (ds : List Date)
    (r : Item) (b : List Item) (hd : get_all_dates h = d :: ds)
    (hb : get_history_for_date h d = r :: b) :
    primeMonitor h = (if r.item_type = "text".data then r.content else [], []) := by
  have h1 : primeMonitor h =
      (match get_history_for_date h d with
       | [] => (([] : Str), ([] : Str))
       | r :: _ => if r.item_type = "text".data then (r.content, []) else ([], [])) := by
    unfold primeMonitor
    rw [hd]
  rw [h1, hb]
  by_cases ht : r.item_type = "text".data <;> simp [ht]

/-- C3 (witness): the amended priming statement evaluated on a history whose
latest item is the text item `itemA`. -/
theorem c3_detector_priming_amended_witness :
    primeMonitor [(dateA, [itemA])] =
      (if itemA.item_type = "text".data then itemA.content else [], []) :=
  c3_detector_priming_amended [(dateA, [itemA])] dateA [] itemA [] (by decide) (by decide)

/-- C4: log order under compaction. For the two-date history
`[(dateA, [itemA]), (dateB, [itemB])]` with `dateA` strictly earlier than
`dateB`, `_rewrite_csv` emits `[itemB, itemA]`: the bucket of the *newest*
date comes first (`sorted(keys, reverse=True)`), so the file is not in
chronological oldest-first order across dates — contradicting the code's own
comment that the CSV should be chronological (only the items *within* one
bucket are reversed into oldest-first order). -/
theorem c4_rewrite_not_chronological :
    rewriteRecords [(dateA, [itemA]), (dateB, [itemB])] = [itemB, itemA] ∧
    Date.le dateA dateB ∧ dateA ≠ dateB ∧ itemA ≠ itemB := by
  refine ⟨?_, ?_, ?_, ?_⟩ <;> decide

/-- C5: text dedup. A candidate is accepted iff it is non-empty and differs
from `recent_text`; on acceptance `recent_text` becomes the candidate;
observing the same value from the updated state is rejected (so two
observations of the same non-empty string give Accepted then Unchanged), and
the empty string is never accepted. -/
theorem c5_text_dedup (last text : Str) :
    ((process_text last text).1 = true ↔ text ≠ [] ∧ text ≠ last) ∧
    ((process_text last text).1 = true → (process_text last text).2 = text) ∧
    (process_text text text).1 = false ∧
    (process_text last []).1 = false := by
  refine ⟨?_, ?_, ?_, ?_⟩
  · by_cases h : text ≠ [] ∧ text ≠ last <;> simp [process_text, h]
  · by_cases h : text ≠ [] ∧ text ≠ last <;> simp [process_text, h]
  · simp [process_text]
  · simp [process_text]

/-- C5 (witness): `observe_text "x"` from an empty-seed state is accepted,
and a second observation of `"x"` is rejected. -/
theorem c5_text_dedup_witness :
    (process_text [] "x".data).1 = true ∧ (process_text "x".data "x".data).1 = false :=
  ⟨(c5_text_dedup [] "x".data).1.mpr (by decide), (c5_text_dedup [] "x".data).2.2.1⟩

/-- C6: escaping round-trip. For every text payload — including payloads
containing the comma delimiter, the quote character and newlines — appending
the encoded record to the log and re-parsing recovers the exact original
three fields; and reloading the log places the item, verbatim, at the head
of its day bucket. -/
theorem c6_escaping_round_trip (rs : List Item) (r : Item) (d : Date)
    (hprev : ∀ p ∈ rs, (fromisoformat p.timestamp_iso).isSome)
    (hr : fromisoformat r.timestamp_iso = some d) :
    parseCSV (encodeRows rs ++ encodeRow r) =
      rs.map toRow ++ [[r.timestamp_iso, r.item_type, r.content]] ∧
    ∃ b, hfind (loadRows [] (parseCSV (encodeRows rs ++ encodeRow r))) d =
      some (r :: b) := by
  have hparse : parseCSV (encodeRows rs ++ encodeRow r) = (rs ++ [r]).map toRow := by
    have : encodeRows rs ++ encodeRow r = encodeRows (rs ++ [r]) := by
      rw [encodeRows_append]
      simp [encodeRows]
    rw [this, parse_encodeRows]
  constructor
  · rw [hparse]
    simp [toRow]
  · rw [hparse, List.map_append, loadRows_map_append rs _ _ hprev]
    refine ⟨(hfind (loadRows [] (rs.map toRow)) d).getD [], ?_⟩
    simp only [List.map_cons, List.map_nil, toRow, loadRows, hr]
    rw [hfind_hinsert, if_pos rfl]

/-- C6 (witness): the round trip evaluated for the payload `a,"b"<LF>c`,
which contains the delimiter, quotes and a newline, appended to an empty
log. -/
theorem c6_escaping_round_trip_witness :
    parseCSV (encodeRows [] ++ encodeRow itemTricky) =
      ([] : List Item).map toRow ++
        [[itemTricky.timestamp_iso, itemTricky.item_type, itemTricky.content]] ∧
    ∃ b, hfind (loadRows [] (parseCSV (encodeRows [] ++ encodeRow itemTricky))) dateC =
      some (itemTricky :: b) :=
  c6_escaping_round_trip [] itemTricky dateC (by simp) (by decide)

/-- C7: deletion idempotence. `clear_date` on a date with no bucket returns
the state unchanged: no error, no change to the in-memory dict, no rewrite of
the on-disk log. -/
theorem c7_delete_absent_noop (st : HM) (d : Date)
    (h : hfind st.history d = none) : clear_date st d = st := by
  simp [clear_date, h]

/-- C7 (witness): deleting a date from a fresh empty manager is a no-op. -/
theorem c7_delete_absent_noop_witness : clear_date hmEmpty dateA = hmEmpty :=
  c7_delete_absent_noop hmEmpty dateA (by decide)

/-- C8 (counterexample): loading is aborted, not resumed, by a record with an
unparsable timestamp. For the file holding a malformed record (month 13)
followed by a well-formed record, the startup load yields an *empty*
history: `datetime.fromisoformat` raises inside the row loop, the
surrounding `except` catches it, and the well-formed record after the
malformed line is never loaded — contrary to the claim. -/
theorem c8_load_fails_soft_counterexample :
    loadFile (some ("2024-13-02T03:04:05,text,a\r\n2024-01-02T03:04:05,text,b\r\n".data)) =
      [] ∧
    fromisoformat "2024-01-02T03:04:05".data = some dateB := by
  refine ⟨?_, ?_⟩ <;> decide

/-- C8 (amended): loading never raises to the caller and a missing file
yields an empty history; a record line of wrong arity is skipped and loading
continues with the following records; but a three-field record whose
timestamp does not parse terminates the load, keeping what was already
loaded and discarding every following record. -/
theorem c8_load_fails_soft_amended :
    (∀ (h : History) (row : List Str) (rest : List (List Str)), row.length ≠ 3 →
      loadRows h (row :: rest) = loadRows h rest) ∧
    (∀ (h : History) (ts ty c : Str) (rest : List (List Str)), fromisoformat ts = none →
      loadRows h ([ts, ty, c] :: rest) = h) ∧
    loadFile none = [] := by
  refine ⟨?_, ?_, rfl⟩
  · intro h row rest hne
    match row with
    | [] => simp [loadRows]
    | [a] => simp [loadRows]
    | [a, b] => simp [loadRows]
    | [a, b, c] => exact absurd (by simp) hne
    | a :: b :: c :: e :: tl => simp [loadRows]
  · intro h ts ty c rest hn
    simp [loadRows, hn]

/-- C8 (witness): a one-field row is skipped (loading continues), and a
three-field row with unparsable timestamp aborts the load. -/
theorem c8_load_fails_soft_amended_witness :
    loadRows [] [["x".data]] = loadRows [] [] ∧
    loadRows [] [["garbage".data, "text".data, "y".data],
      ["2024-01-02T09:30:00".data, "text".data, "z".data]] = [] :=
  ⟨c8_load_fails_soft_amended.1 [] ["x".data] [] (by decide),
    c8_load_fails_soft_amended.2.1 [] "garbage".data "text".data "y".data _ (by decide)⟩

/-- C9: bucket-key invariant. In every history state reachable by a startup
load (from any file state) followed by any sequence of live insertions and
deletions, every item stored in the bucket keyed `d` has a timestamp whose
calendar date is `d`. -/
theorem c9_bucket_key_invariant (h : History) (hr : Reachable h) (d : Date)
    (b : List Item) (hb : hfind h d = some b) (r : Item) (hm : r ∈ b) :
    fromisoformat r.timestamp_iso = some d :=
  (reachable_good hr).2 d b hb r hm

/-- C9 (witness): the invariant applied to the reachable state obtained by
booting with no file and inserting `itemA` live. -/
theorem c9_bucket_key_invariant_witness :
    fromisoformat itemA.timestamp_iso = some dateA :=
  c9_bucket_key_invariant (hinsert (loadFile none) dateA itemA)
    (Reachable.add (loadFile none) itemA.timestamp_iso itemA.item_type itemA.content
      dateA (Reachable.boot none) (by decide))
    dateA [itemA] (by decide) itemA (by decide)

/-- C10: deletion frame. For every manager state with distinct bucket keys
(as a Python dict guarantees) and every date `d` that has a bucket,
`clear_date d` removes exactly that bucket: `d` no longer resolves, every
other date resolves to its unchanged bucket (same items, same order), and
`get_all_dates()` afterwards is the previous result with `d` removed. -/
theorem c10_delete_frame (st : HM) (d : Date) (b : List Item)
    (hnd : (hkeys st.history).Nodup) (hb : hfind st.history d = some b) :
    hfind (clear_date st d).history d = none ∧
    (∀ d', d' ≠ d → hfind (clear_date st d).history d' = hfind st.history d') ∧
    get_all_dates (clear_date st d).history = (get_all_dates st.history).erase d := by
  have hcd : (clear_date st d).history = eraseDate st.history d := by
    simp [clear_date, hb, rewrite_csv]
  rw [hcd]
  refine ⟨hfind_eraseDate_self _ _ hnd, fun d' hne => hfind_eraseDate_ne _ hne, ?_⟩
  rw [get_all_dates, hkeys_eraseDate, insertionSort_dge_erase]
  rfl

/-- C10 (witness): the deletion frame evaluated on the two-bucket state
`stAB`, deleting `dateA` and checking `dateB` is untouched. -/
theorem c10_delete_frame_witness :
    hfind (clear_date stAB dateA).history dateA = none ∧
    hfind (clear_date stAB dateA).history dateB = hfind stAB.history dateB ∧
    get_all_dates (clear_date stAB dateA).history =
      (get_all_dates stAB.history).erase dateA := by
  obtain ⟨h1, h2, h3⟩ := c10_delete_frame stAB dateA [itemA] (by decide) (by decide)
  exact ⟨h1, h2 dateB (by decide), h3⟩

end ClipIt
